import Mathlib

/-!
Shallow embedding of `src/bond_end_prices.py`, a command-line pipeline that
downloads daily closing prices for a ticker, windows them around a reference
date, labels each row as before / on-or-after the reference date, computes a
four-month average and writes a spreadsheet.

Modelling conventions:
  * Python `datetime.date` becomes a `Date` record (year : Int, month, day :
    Nat); comparison of dates is lexicographic, as in Python.
  * `pandas.Timestamp` becomes `Timestamp`: a `Date` plus a time-of-day
    component `tod` (an abstract count of sub-day units, 0 = midnight).
    `Timestamp.normalize` zeroes `tod`; `pd.DateOffset(months = n)` is
    calendar-month arithmetic with day-of-month clamping, preserving `tod`.
  * Numeric close prices are rationals; raw provider cells (`RawVal`) may be
    numeric, textual, or missing — `pd.to_numeric(..., errors = "coerce")`
    maps non-numeric cells to `none`.
  * A fetched frame (`History`) carries a row index of dates and either a
    flat column list or a two-level (field, ticker) column list, mirroring
    the two shapes yfinance may return.
  * `SystemExit` aborts become `Except.error` carrying the message string;
    writing the Excel file becomes returning a `WrittenFile` value, so an
    error result means no file was produced.
-/

namespace BondEndPrices

/-! ### Calendar basics -/

/-- Gregorian leap-year test. -/
def isLeap (y : Int) : Bool :=
  y % 4 == 0 && (y % 100 != 0 || y % 400 == 0)

/-- Number of days in month `m` of year `y` (m counted 1–12). -/
def daysInMonth (y : Int) (m : Nat) : Nat :=
  if m == 2 then (if isLeap y then 29 else 28)
  else if m == 4 || m == 6 || m == 9 || m == 11 then 30
  else 31

/-- A calendar date, as Python's `datetime.date`. -/
structure Date where
  year : Int
  month : Nat
  day : Nat
deriving DecidableEq, Repr

/-- A structurally well-formed calendar date. -/
def ValidDate (d : Date) : Prop :=
  1 ≤ d.month ∧ d.month ≤ 12 ∧ 1 ≤ d.day ∧ d.day ≤ daysInMonth d.year d.month

instance (d : Date) : Decidable (ValidDate d) := by
  unfold ValidDate; infer_instance

/-- Lexicographic strict comparison, as Python compares `date` values. -/
def dateLt (a b : Date) : Prop :=
  a.year < b.year ∨ (a.year = b.year ∧
    (a.month < b.month ∨ (a.month = b.month ∧ a.day < b.day)))

instance (a b : Date) : Decidable (dateLt a b) := by
  unfold dateLt; infer_instance

/-- Lexicographic non-strict comparison of dates. -/
def dateLe (a b : Date) : Prop :=
  a.year < b.year ∨ (a.year = b.year ∧
    (a.month < b.month ∨ (a.month = b.month ∧ a.day ≤ b.day)))

instance (a b : Date) : Decidable (dateLe a b) := by
  unfold dateLe; infer_instance

theorem dateLe_iff_not_lt (a b : Date) : dateLe a b ↔ ¬ dateLt b a := by
  unfold dateLe dateLt
  constructor
  · rintro (h | ⟨h, h2 | ⟨h2, h3⟩⟩) <;> rintro (g | ⟨g, g2 | ⟨g2, g3⟩⟩) <;> omega
  · intro h
    by_cases hy : a.year < b.year
    · exact Or.inl hy
    · by_cases hy2 : a.year = b.year
      · refine Or.inr ⟨hy2, ?_⟩
        by_cases hm : a.month < b.month
        · exact Or.inl hm
        · by_cases hm2 : a.month = b.month
          · refine Or.inr ⟨hm2, ?_⟩
            by_contra hd
            exact h (Or.inr ⟨hy2.symm, Or.inr ⟨hm2.symm, by omega⟩⟩)
          · exact absurd (Or.inr ⟨hy2.symm, Or.inl (by omega)⟩) h
      · exact absurd (Or.inl (by omega)) h

/-- The calendar day after `d` (used to make the provider's exclusive end
bound cover an inclusive window). -/
def succDate (d : Date) : Date :=
  if d.day < daysInMonth d.year d.month then ⟨d.year, d.month, d.day + 1⟩
  else if d.month < 12 then ⟨d.year, d.month + 1, 1⟩
  else ⟨d.year + 1, 1, 1⟩

/-- Linearised month index: `year * 12 + (month - 1)`. Two dates are the same
calendar month away exactly when their month indices differ by that amount. -/
def monthIndex (d : Date) : Int :=
  d.year * 12 + (d.month : Int) - 1

/-- `pd.DateOffset(months = n)` arithmetic on dates: shift the month index by
`n` and clamp the day-of-month to the length of the landing month. -/
def shiftMonths (d : Date) (n : Int) : Date :=
  let total : Int := monthIndex d + n
  let y : Int := total / 12
  let m : Nat := (total % 12).toNat + 1
  ⟨y, m, min d.day (daysInMonth y m)⟩

/-- A pandas timestamp: a date plus a time-of-day (0 = midnight). -/
structure Timestamp where
  date : Date
  tod : Nat
deriving DecidableEq, Repr

/-- `pd.Timestamp(d)` for a plain date: midnight of that day. -/
def Timestamp.ofDate (d : Date) : Timestamp := ⟨d, 0⟩

/-- `Timestamp.normalize`: keep the date, reset the time to midnight. -/
def Timestamp.normalize (t : Timestamp) : Timestamp := ⟨t.date, 0⟩

/-- `ts + pd.DateOffset(months = n)`: month arithmetic on the date part,
time-of-day preserved. -/
def tsAddMonths (t : Timestamp) (n : Int) : Timestamp :=
  ⟨shiftMonths t.date n, t.tod⟩

/-- Timestamp comparison: lexicographic on (date, time-of-day). -/
def tsLe (a b : Timestamp) : Prop :=
  dateLt a.date b.date ∨ (a.date = b.date ∧ a.tod ≤ b.tod)

instance (a b : Timestamp) : Decidable (tsLe a b) := by
  unfold tsLe; infer_instance

/-! ### compute_window_bounds (src/bond_end_prices.py lines 44–49) -/

/-- `compute_window_bounds`: two months each side of the target, both bounds
normalized to midnight. -/
def compute_window_bounds (target : Date) : Timestamp × Timestamp :=
  let target_ts := Timestamp.ofDate target
  let start_ts := tsAddMonths target_ts (-2)
  let end_ts := tsAddMonths target_ts 2
  (start_ts.normalize, end_ts.normalize)

theorem monthIndex_shiftMonths (d : Date) (n : Int) :
    monthIndex (shiftMonths d n) = monthIndex d + n := by
  unfold shiftMonths monthIndex
  simp only
  have h0 : (12 : Int) ≠ 0 := by norm_num
  have h1 : 0 ≤ (d.year * 12 + (d.month : Int) - 1 + n) % 12 :=
    Int.emod_nonneg _ h0
  have h2 := Int.ediv_add_emod (d.year * 12 + (d.month : Int) - 1 + n) 12
  have h3 : (((d.year * 12 + (d.month : Int) - 1 + n) % 12).toNat : Int) =
      (d.year * 12 + (d.month : Int) - 1 + n) % 12 := Int.toNat_of_nonneg h1
  push_cast
  rw [h3]
  omega

theorem daysInMonth_pos (y : Int) (m : Nat) : 1 ≤ daysInMonth y m := by
  unfold daysInMonth
  split <;> [skip; split] <;> first | (split <;> norm_num) | norm_num

theorem shiftMonths_valid (d : Date) (h : ValidDate d) (n : Int) :
    ValidDate (shiftMonths d n) := by
  obtain ⟨h1, h2, h3, h4⟩ := h
  unfold shiftMonths ValidDate
  simp only
  refine ⟨?_, ?_, ?_, ?_⟩
  · omega
  · have h0 : (0 : Int) < 12 := by norm_num
    have := Int.emod_lt_of_pos (monthIndex d + n) h0
    have := Int.emod_nonneg (monthIndex d + n) (by norm_num : (12 : Int) ≠ 0)
    omega
  · have := daysInMonth_pos ((monthIndex d + n) / 12) (((monthIndex d + n) % 12).toNat + 1)
    omega
  · exact min_le_right _ _

theorem dateLt_succDate_iff (d e : Date) (hd : ValidDate d) (he : ValidDate e) :
    dateLt d (succDate e) ↔ dateLe d e := by
  obtain ⟨hd1, hd2, hd3, hd4⟩ := hd
  obtain ⟨he1, he2, he3, he4⟩ := he
  unfold succDate
  by_cases hc : d.year = e.year ∧ d.month = e.month
  · obtain ⟨hcy, hcm⟩ := hc
    have hdim : daysInMonth d.year d.month = daysInMonth e.year e.month := by
      rw [hcy, hcm]
    split_ifs with h1 h2 <;> simp only [dateLt, dateLe] <;> omega
  · split_ifs with h1 h2 <;> simp only [dateLt, dateLe] <;> omega

/-- Shared characterisation of `compute_window_bounds`: midnight bounds, month
index shifted by ∓2, day-of-month clamped, validity preserved. -/
theorem window_bounds_props (D : Date) (h : ValidDate D) :
    (compute_window_bounds D).1.tod = 0 ∧
    (compute_window_bounds D).2.tod = 0 ∧
    monthIndex (compute_window_bounds D).1.date = monthIndex D - 2 ∧
    monthIndex (compute_window_bounds D).2.date = monthIndex D + 2 ∧
    (compute_window_bounds D).1.date.day =
      min D.day (daysInMonth (compute_window_bounds D).1.date.year
        (compute_window_bounds D).1.date.month) ∧
    (compute_window_bounds D).2.date.day =
      min D.day (daysInMonth (compute_window_bounds D).2.date.year
        (compute_window_bounds D).2.date.month) ∧
    ValidDate (compute_window_bounds D).1.date ∧
    ValidDate (compute_window_bounds D).2.date := by
  refine ⟨rfl, rfl, ?_, ?_, rfl, rfl, ?_, ?_⟩
  · have := monthIndex_shiftMonths D (-2)
    simpa [compute_window_bounds, tsAddMonths, Timestamp.normalize,
      Timestamp.ofDate] using this
  · have := monthIndex_shiftMonths D 2
    simpa [compute_window_bounds, tsAddMonths, Timestamp.normalize,
      Timestamp.ofDate] using this
  · exact shiftMonths_valid D h (-2)
  · exact shiftMonths_valid D h 2

/-- C1: for every valid reference date `D`, the computed window is the closed
interval from `D` minus two calendar months to `D` plus two calendar months —
month index shifted by exactly ∓2 with the day-of-month carried over (clamped
to the landing month's length) — and both bounds are normalized to midnight;
in particular for 2024-03-15 the window is 2024-01-15 to 2024-05-15. -/
theorem c1_window_two_calendar_months (D : Date) (h : ValidDate D) :
    (compute_window_bounds D).1.tod = 0 ∧
    (compute_window_bounds D).2.tod = 0 ∧
    monthIndex (compute_window_bounds D).1.date = monthIndex D - 2 ∧
    monthIndex (compute_window_bounds D).2.date = monthIndex D + 2 ∧
    (compute_window_bounds D).1.date.day =
      min D.day (daysInMonth (compute_window_bounds D).1.date.year
        (compute_window_bounds D).1.date.month) ∧
    (compute_window_bounds D).2.date.day =
      min D.day (daysInMonth (compute_window_bounds D).2.date.year
        (compute_window_bounds D).2.date.month) ∧
    ValidDate (compute_window_bounds D).1.date ∧
    ValidDate (compute_window_bounds D).2.date ∧
    compute_window_bounds ⟨2024, 3, 15⟩ =
      (⟨⟨2024, 1, 15⟩, 0⟩, ⟨⟨2024, 5, 15⟩, 0⟩) := by
  obtain ⟨p1, p2, p3, p4, p5, p6, p7, p8⟩ := window_bounds_props D h
  exact ⟨p1, p2, p3, p4, p5, p6, p7, p8, by decide⟩

/-- Witness for C1 at the concrete reference date 2024-03-15. -/
theorem c1_window_two_calendar_months_witness :
    monthIndex (compute_window_bounds ⟨2024, 3, 15⟩).1.date =
      monthIndex ⟨2024, 3, 15⟩ - 2 :=
  (c1_window_two_calendar_months ⟨2024, 3, 15⟩ (by decide)).2.2.1

/-- C10: when the reference date's day-of-month does not exist in the month
two calendar months away, the corresponding bound is clamped to the last day
of that month; the bound stays a valid date in the month exactly two months
away (no overflow, no failure); e.g. 2024-12-31 yields window end
2025-02-28. -/
theorem c10_day_of_month_clamped (D : Date) (h : ValidDate D) :
    (daysInMonth (compute_window_bounds D).2.date.year
        (compute_window_bounds D).2.date.month < D.day →
      (compute_window_bounds D).2.date.day =
        daysInMonth (compute_window_bounds D).2.date.year
          (compute_window_bounds D).2.date.month) ∧
    (daysInMonth (compute_window_bounds D).1.date.year
        (compute_window_bounds D).1.date.month < D.day →
      (compute_window_bounds D).1.date.day =
        daysInMonth (compute_window_bounds D).1.date.year
          (compute_window_bounds D).1.date.month) ∧
    ValidDate (compute_window_bounds D).1.date ∧
    ValidDate (compute_window_bounds D).2.date ∧
    monthIndex (compute_window_bounds D).1.date = monthIndex D - 2 ∧
    monthIndex (compute_window_bounds D).2.date = monthIndex D + 2 ∧
    compute_window_bounds ⟨2024, 12, 31⟩ =
      (⟨⟨2024, 10, 31⟩, 0⟩, ⟨⟨2025, 2, 28⟩, 0⟩) := by
  obtain ⟨p1, p2, p3, p4, p5, p6, p7, p8⟩ := window_bounds_props D h
  refine ⟨?_, ?_, p7, p8, p3, p4, by decide⟩
  · intro hlt
    omega
  · intro hlt
    omega

/-- Witness for C10 at the concrete reference date 2024-12-31. -/
theorem c10_day_of_month_clamped_witness :
    (compute_window_bounds ⟨2024, 12, 31⟩).2.date.day =
      daysInMonth (compute_window_bounds ⟨2024, 12, 31⟩).2.date.year
        (compute_window_bounds ⟨2024, 12, 31⟩).2.date.month :=
  (c10_day_of_month_clamped ⟨2024, 12, 31⟩ (by decide)).1 (by decide)

/-! ### Raw provider data -/

/-- A raw cell of the downloaded table: numeric, textual (non-numeric), or
missing (NaN). -/
inductive RawVal where
  | num (q : ℚ)
  | text (s : String)
  | missing
deriving DecidableEq, Repr

/-- `pd.to_numeric(·, errors="coerce")` on one cell: numeric cells survive,
everything else becomes missing. -/
def toNumericCoerce : RawVal → Option ℚ
  | .num q => some q
  | .text _ => none
  | .missing => none

/-- A fetched frame: a date row-index together with either flat columns or
two-level (field, ticker) columns — the two shapes yfinance may return. The
k-th entry of a column list is the value at the k-th index date. -/
inductive History where
  | single (index : List Date) (cols : List (String × List RawVal))
  | multi (index : List Date) (cols : List ((String × String) × List RawVal))
deriving DecidableEq

/-- Row index of a frame (`history.index`). -/
def History.index : History → List Date
  | .single idx _ => idx
  | .multi idx _ => idx

/-- `DataFrame.empty`: true when either axis has length zero. -/
def History.isEmpty : History → Bool
  | .single idx cols => idx.isEmpty || cols.isEmpty
  | .multi idx cols => idx.isEmpty || cols.isEmpty

/-! ### Zero-padded ISO date rendering (`date.isoformat()`) -/

def pad2 (n : Nat) : String :=
  if n < 10 then "0" ++ toString n else toString n

def pad4 (n : Nat) : String :=
  if n < 10 then "000" ++ toString n
  else if n < 100 then "00" ++ toString n
  else if n < 1000 then "0" ++ toString n
  else toString n

def isoDate (d : Date) : String :=
  pad4 d.year.toNat ++ "-" ++ pad2 d.month ++ "-" ++ pad2 d.day

/-! ### extract_close_series (src/bond_end_prices.py lines 71–103) -/

/-- `history.xs("Close", axis=1, level=0)`: the "Close"-labeled columns,
re-keyed by their remaining (ticker) label, order preserved. -/
def closeColumns (cols : List ((String × String) × List RawVal)) :
    List (String × List RawVal) :=
  cols.filterMap (fun kv => if kv.1.1 == "Close" then some (kv.1.2, kv.2) else none)

/-- Column resolution of `extract_close_series`. For the two-level shape:
direct `("Close", ticker)` lookup first; otherwise take all "Close" columns
(aborting if there are none, the `KeyError` branch), prefer an exact ticker
match, accept a single remaining column regardless of its name (`squeeze`),
and otherwise abort listing the available columns. (The defensive
`isinstance(close_df, pd.Series)` branch of the source cannot arise here:
a level-selecting `xs` on the column axis always yields a frame.) For the
flat shape: require a "Close" column. -/
def select_close (h : History) (ticker : String) : Except String (List RawVal) :=
  match h with
  | .multi _ cols =>
    match cols.lookup ("Close", ticker) with
    | some v => .ok v
    | none =>
      let cc := closeColumns cols
      if cc.isEmpty then
        .error "Downloaded data does not include 'Close' prices."
      else
        match cc.lookup ticker with
        | some v => .ok v
        | none =>
          match cc with
          | [c] => .ok c.2
          | _ => .error ("Unable to find close prices for ticker '" ++ ticker ++
              "'. Available columns: " ++
              String.intercalate ", " (cc.map Prod.fst))
  | .single _ cols =>
    match cols.lookup "Close" with
    | some v => .ok v
    | none => .error "Downloaded data does not include 'Close' prices."

/-- `close.loc[~close.index.duplicated(keep="last")]`: keep, for every date,
only its last occurrence, preserving the order of the kept entries. -/
def dedupKeepLast {α : Type} : List (Date × α) → List (Date × α)
  | [] => []
  | x :: xs =>
    if xs.any (fun y => y.1 == x.1) then dedupKeepLast xs
    else x :: dedupKeepLast xs

/-- `.dropna()`: keep the entries whose value is present. -/
def dropMissing (l : List (Date × Option ℚ)) : List (Date × ℚ) :=
  l.filterMap (fun p => p.2.map (fun q => (p.1, q)))

/-- Sorted insertion of one entry, by date. -/
def insertByDate (x : Date × ℚ) : List (Date × ℚ) → List (Date × ℚ)
  | [] => [x]
  | y :: ys =>
    if decide (dateLe x.1 y.1) then x :: y :: ys else y :: insertByDate x ys

/-- `.sort_index()`: sort ascending by date. At its call site the date keys
are unique (they were just deduplicated), so every comparison sort produces
the same list; insertion sort keeps the definition kernel-reducible. -/
def sortByDate : List (Date × ℚ) → List (Date × ℚ)
  | [] => []
  | x :: xs => insertByDate x (sortByDate xs)

/-- The cleaning tail of `extract_close_series` (lines 98–103): coerce the
selected column to numeric, key it by the frame's dates, drop duplicate dates
keeping the last occurrence, drop missing entries, abort if nothing is left,
and return the series sorted by date. -/
def clean_close (index : List Date) (vals : List RawVal) :
    Except String (List (Date × ℚ)) :=
  let close0 := index.zip (vals.map toNumericCoerce)
  let close1 := dedupKeepLast close0
  let close2 := dropMissing close1
  if close2.isEmpty then .error "Close price series contains no numeric data."
  else .ok (sortByDate close2)

/-- `extract_close_series`: column resolution followed by cleaning. -/
def extract_close_series (h : History) (ticker : String) :
    Except String (List (Date × ℚ)) :=
  match select_close h ticker with
  | .error m => .error m
  | .ok vals => clean_close h.index vals

/-! ### download_history (src/bond_end_prices.py lines 52–68) -/

/-- The market-data provider, abstracted: (ticker, start, exclusive end) to a
frame. -/
def Provider : Type := String → Date → Date → History

/-- `download_history`: request `[start, end + 1 day)` — one day is added to
the end so the provider's exclusive bound makes the range inclusive — and
abort (naming ticker and the requested inclusive range) when the provider
returns an empty frame. -/
def download_history (provider : Provider) (ticker : String) (s e : Timestamp) :
    Except String History :=
  let yf_end := succDate e.date
  let data := provider ticker s.date yf_end
  if data.isEmpty then
    .error ("No price data was returned for ticker '" ++ ticker ++ "' between " ++
      isoDate s.date ++ " and " ++ isoDate e.date ++ ".")
  else .ok data

/-! ### build_daily_frame (src/bond_end_prices.py lines 106–122) -/

/-- One row of the daily frame: date, close, segment label. -/
structure Row where
  date : Date
  close : ℚ
  segment : String
deriving DecidableEq, Repr

/-- `build_daily_frame`: keep the series entries inside `[start, end]` (both
comparisons on midnight timestamps), abort naming the range when nothing is
left, and label each row "Before {target}" when its date is strictly before
the target and "On/After {target}" otherwise. -/
def build_daily_frame (close : List (Date × ℚ)) (target s e : Timestamp) :
    Except String (List Row) :=
  let windowed := close.filter (fun x =>
    decide (tsLe s (Timestamp.ofDate x.1)) && decide (tsLe (Timestamp.ofDate x.1) e))
  if windowed.isEmpty then
    .error ("No daily close prices available between " ++ isoDate s.date ++
      " and " ++ isoDate e.date ++ ".")
  else
    let before_label := "Before " ++ isoDate target.date
    let after_label := "On/After " ++ isoDate target.date
    .ok (windowed.map (fun x =>
      { date := x.1, close := x.2
        segment := if decide (dateLt x.1 target.date) then before_label
          else after_label }))

/-! ### Output path handling and write_excel (lines 125–136, 150–154) -/

/-- Split a file name at its last dot: `some (pre, post)` with
`name = pre ++ '.' :: post`, or `none` when the name has no dot. -/
def lastDotSplit : List Char → Option (List Char × List Char)
  | [] => none
  | c :: cs =>
    match lastDotSplit cs with
    | some (pre, post) => some (c :: pre, post)
    | none => if c == '.' then some ([], cs) else none

/-- `PurePath.suffix`: the extension from the last dot, counted only when the
dot is neither the first nor the last character of the name. -/
def sfx (name : List Char) : List Char :=
  match lastDotSplit name with
  | some (pre, post) => if pre.isEmpty || post.isEmpty then [] else '.' :: post
  | none => []

/-- `PurePath.with_suffix`: strip the old suffix (when there is one) and
append the new one. -/
def withSuffix (name suf : List Char) : List Char :=
  match lastDotSplit name with
  | some (pre, post) => if pre.isEmpty || post.isEmpty then name ++ suf else pre ++ suf
  | none => name ++ suf

/-- The enforced spreadsheet extension `".xlsx"`. -/
def xlsxChars : List Char := ['.', 'x', 'l', 's', 'x']

/-- The output spreadsheet: resolved path, "Daily Closes" sheet rows, and the
single "Summary" metric row. Producing this value models the file write; an
aborted run produces none. -/
structure WrittenFile where
  path : List Char
  daily : List Row
  summaryMetric : String
  summaryValue : ℚ
deriving DecidableEq

/-- `write_excel`: enforce the `.xlsx` suffix on the output path and write the
two sheets. -/
def write_excel (daily_df : List Row) (average : ℚ) (output_path : List Char) :
    WrittenFile :=
  { path := withSuffix output_path xlsxChars
    daily := daily_df
    summaryMetric := "Four-month average close"
    summaryValue := average }

/-! ### main (src/bond_end_prices.py lines 139–164) -/

/-- `daily_df["Close"].mean()`: unweighted arithmetic mean. -/
def mean (xs : List ℚ) : ℚ := xs.sum / (xs.length : ℚ)

/-- The output path used by `main`: the `--output` argument when given, else
`{ticker}_{as_of}_daily_closes.xlsx`. -/
def resolved_output_path (ticker : String) (target : Date)
    (output : Option (List Char)) : List Char :=
  match output with
  | some p => p
  | none => (ticker ++ "_" ++ isoDate target ++ "_daily_closes.xlsx").data

/-- The pipeline of `main` after argument parsing: window, download, extract,
frame, average, resolve the output path, write. -/
def runMain (provider : Provider) (ticker : String) (target : Date)
    (output : Option (List Char)) : Except String WrittenFile :=
  let bounds := compute_window_bounds target
  match download_history provider ticker bounds.1 bounds.2 with
  | .error m => .error m
  | .ok history =>
    match extract_close_series history ticker with
    | .error m => .error m
    | .ok close =>
      match build_daily_frame close (Timestamp.ofDate target) bounds.1 bounds.2 with
      | .error m => .error m
      | .ok daily_df =>
        let four_month_average := mean (daily_df.map Row.close)
        let output_path := resolved_output_path ticker target output
        .ok (write_excel daily_df four_month_average output_path)

/-- The file produced by a run: `some` on success, `none` when the run
aborted before writing. -/
def writtenFile : Except String WrittenFile → Option WrittenFile
  | .ok f => some f
  | .error _ => none

/-! ### Helper lemmas for the frame builder -/

theorem date_eq_iff (a b : Date) :
    a = b ↔ a.year = b.year ∧ a.month = b.month ∧ a.day = b.day := by
  constructor
  · rintro rfl; exact ⟨rfl, rfl, rfl⟩
  · rintro ⟨h1, h2, h3⟩; cases a; cases b; simp_all

theorem tsLe_normalized_left (s : Timestamp) (hs : s.tod = 0) (d : Date) :
    tsLe s (Timestamp.ofDate d) ↔ dateLe s.date d := by
  unfold tsLe Timestamp.ofDate dateLe dateLt
  rw [date_eq_iff]
  simp only
  omega

theorem tsLe_normalized_right (d : Date) (e : Timestamp) :
    tsLe (Timestamp.ofDate d) e ↔ dateLe d e.date := by
  unfold tsLe Timestamp.ofDate dateLe dateLt
  rw [date_eq_iff]
  simp only
  omega

theorem before_label_ne_after_label (x : String) :
    ("Before " ++ x) ≠ ("On/After " ++ x) := by
  intro h
  have h2 := congrArg String.length h
  rw [String.length_append, String.length_append] at h2
  have e1 : ("Before " : String).length = 7 := rfl
  have e2 : ("On/After " : String).length = 9 := rfl
  omega

/-- C2: in every successfully built daily frame, a row carries the
"Before {reference}" label exactly when its date is strictly before the
reference date, and the "On/After {reference}" label exactly when its date is
on or after the reference date (so the reference date itself is labeled
"On/After"). -/
theorem c2_segment_labels (close : List (Date × ℚ)) (t s e : Timestamp)
    (rows : List Row) (h : build_daily_frame close t s e = .ok rows) :
    ∀ r ∈ rows,
      (r.segment = "Before " ++ isoDate t.date ↔ dateLt r.date t.date) ∧
      (r.segment = "On/After " ++ isoDate t.date ↔ dateLe t.date r.date) := by
  simp only [build_daily_frame] at h
  split at h
  · exact absurd h (by simp)
  · rw [Except.ok.injEq] at h
    subst h
    intro r hr
    rw [List.mem_map] at hr
    obtain ⟨x, hx, rfl⟩ := hr
    by_cases hlt : dateLt x.1 t.date
    · have hdt : decide (dateLt x.1 t.date) = true := decide_eq_true hlt
      refine ⟨⟨fun _ => hlt, fun _ => ?_⟩, ⟨fun hseg => ?_, fun hle => ?_⟩⟩
      · rw [if_pos hdt]
      · rw [if_pos hdt] at hseg
        exact (before_label_ne_after_label (isoDate t.date) hseg).elim
      · exact absurd hlt ((dateLe_iff_not_lt t.date x.1).mp hle)
    · have hdf : ¬(decide (dateLt x.1 t.date) = true) := by simp [hlt]
      refine ⟨⟨fun hseg => ?_, fun hl => absurd hl hlt⟩,
        ⟨fun _ => (dateLe_iff_not_lt t.date x.1).mpr hlt, fun _ => ?_⟩⟩
      · rw [if_neg hdf] at hseg
        exact (before_label_ne_after_label (isoDate t.date) hseg.symm).elim
      · rw [if_neg hdf]

/-- Witness for C2 on a concrete one-row frame. -/
theorem c2_segment_labels_witness :
    (({ date := ⟨2024, 3, 14⟩, close := 100, segment := "Before 2024-03-15" } :
        Row).segment = "Before " ++ isoDate ⟨2024, 3, 15⟩ ↔
      dateLt ⟨2024, 3, 14⟩ ⟨2024, 3, 15⟩) ∧
    (({ date := ⟨2024, 3, 14⟩, close := 100, segment := "Before 2024-03-15" } :
        Row).segment = "On/After " ++ isoDate ⟨2024, 3, 15⟩ ↔
      dateLe ⟨2024, 3, 15⟩ ⟨2024, 3, 14⟩) :=
  c2_segment_labels [(⟨2024, 3, 14⟩, 100)] ⟨⟨2024, 3, 15⟩, 0⟩
    ⟨⟨2024, 1, 15⟩, 0⟩ ⟨⟨2024, 5, 15⟩, 0⟩
    [{ date := ⟨2024, 3, 14⟩, close := 100, segment := "Before 2024-03-15" }]
    (by rfl) _ (by simp)

/-- C7: the frame builder keeps exactly the series entries whose dates lie in
`[start, end]` with both endpoints admitted, and when nothing remains it
aborts with the error naming the date range. -/
theorem c7_window_filter_inclusive (close : List (Date × ℚ)) (t s e : Timestamp)
    (hs : s.tod = 0) :
    (∀ rows, build_daily_frame close t s e = .ok rows →
      rows.map (fun r => (r.date, r.close)) =
        close.filter (fun x => decide (dateLe s.date x.1) &&
          decide (dateLe x.1 e.date))) ∧
    (build_daily_frame close t s e =
        .error ("No daily close prices available between " ++ isoDate s.date ++
          " and " ++ isoDate e.date ++ ".") ↔
      close.filter (fun x => decide (dateLe s.date x.1) &&
        decide (dateLe x.1 e.date)) = []) := by
  have hw : close.filter (fun x => decide (tsLe s (Timestamp.ofDate x.1)) &&
        decide (tsLe (Timestamp.ofDate x.1) e)) =
      close.filter (fun x => decide (dateLe s.date x.1) &&
        decide (dateLe x.1 e.date)) := by
    refine List.filter_congr fun x _ => ?_
    rw [decide_eq_decide.mpr (tsLe_normalized_left s hs x.1),
      decide_eq_decide.mpr (tsLe_normalized_right x.1 e)]
  constructor
  · intro rows h
    simp only [build_daily_frame] at h
    rw [hw] at h
    split at h
    · exact absurd h (by simp)
    · rw [Except.ok.injEq] at h
      subst h
      rw [List.map_map]
      have hid : ∀ l : List (Date × ℚ), l.map ((fun r : Row => (r.date, r.close)) ∘
          (fun x : Date × ℚ => ⟨x.1, x.2,
            if decide (dateLt x.1 t.date) = true then "Before " ++ isoDate t.date
            else "On/After " ++ isoDate t.date⟩)) = l := by
        intro l
        induction l with
        | nil => rfl
        | cons y ys ih => simp only [List.map_cons, ih, Function.comp]
      exact hid _
  · constructor
    · intro herr
      simp only [build_daily_frame] at herr
      rw [hw] at herr
      by_cases hemp : (close.filter (fun x => decide (dateLe s.date x.1) &&
          decide (dateLe x.1 e.date))).isEmpty
      · exact List.isEmpty_iff.mp hemp
      · rw [if_neg hemp] at herr
        exact absurd herr (by simp)
    · intro hemp
      simp only [build_daily_frame]
      rw [hw, if_pos (by rw [hemp]; rfl)]

/-- Witness for C7 on a concrete one-row series. -/
theorem c7_window_filter_inclusive_witness :
    [({ date := ⟨2024, 3, 14⟩, close := 100, segment := "Before 2024-03-15" } :
        Row)].map (fun r => (r.date, r.close)) =
      [(⟨2024, 3, 14⟩, (100 : ℚ))].filter (fun x =>
        decide (dateLe (⟨2024, 1, 15⟩ : Date) x.1) &&
        decide (dateLe x.1 (⟨2024, 5, 15⟩ : Date))) :=
  (c7_window_filter_inclusive [(⟨2024, 3, 14⟩, 100)] ⟨⟨2024, 3, 15⟩, 0⟩
    ⟨⟨2024, 1, 15⟩, 0⟩ ⟨⟨2024, 5, 15⟩, 0⟩ rfl).1
    [{ date := ⟨2024, 3, 14⟩, close := 100, segment := "Before 2024-03-15" }]
    (by rfl)

/-! ### Helper lemmas for the series cleaning -/

theorem dateLe_trans {a b c : Date} (h1 : dateLe a b) (h2 : dateLe b c) :
    dateLe a c := by
  unfold dateLe at *
  omega

theorem dateLe_total (a b : Date) : dateLe a b ∨ dateLe b a := by
  unfold dateLe
  omega

theorem mem_insertByDate (x a : Date × ℚ) (l : List (Date × ℚ)) :
    a ∈ insertByDate x l ↔ a = x ∨ a ∈ l := by
  induction l with
  | nil => simp [insertByDate]
  | cons y ys ih =>
    simp only [insertByDate]
    split
    · simp [List.mem_cons]
    · rw [List.mem_cons, ih, List.mem_cons]
      tauto

theorem insertByDate_perm (x : Date × ℚ) (l : List (Date × ℚ)) :
    (insertByDate x l).Perm (x :: l) := by
  induction l with
  | nil => exact List.Perm.refl _
  | cons y ys ih =>
    simp only [insertByDate]
    split
    · exact List.Perm.refl _
    · exact (ih.cons y).trans (List.Perm.swap x y ys)

theorem sortByDate_perm (l : List (Date × ℚ)) : (sortByDate l).Perm l := by
  induction l with
  | nil => exact List.Perm.refl _
  | cons x xs ih =>
    exact (insertByDate_perm x (sortByDate xs)).trans (ih.cons x)

theorem mem_sortByDate (a : Date × ℚ) (l : List (Date × ℚ)) :
    a ∈ sortByDate l ↔ a ∈ l := (sortByDate_perm l).mem_iff

theorem pairwise_insertByDate (x : Date × ℚ) (l : List (Date × ℚ))
    (h : l.Pairwise (fun a b => dateLe a.1 b.1)) :
    (insertByDate x l).Pairwise (fun a b => dateLe a.1 b.1) := by
  induction l with
  | nil => simp [insertByDate]
  | cons y ys ih =>
    rw [List.pairwise_cons] at h
    obtain ⟨hy, hys⟩ := h
    simp only [insertByDate]
    split
    · rename_i hle
      refine List.pairwise_cons.mpr ⟨?_, List.pairwise_cons.mpr ⟨hy, hys⟩⟩
      intro b hb
      rcases List.mem_cons.mp hb with rfl | hb'
      · exact of_decide_eq_true hle
      · exact dateLe_trans (of_decide_eq_true hle) (hy b hb')
    · rename_i hnle
      have hyx : dateLe y.1 x.1 := by
        rcases dateLe_total x.1 y.1 with h | h
        · exact absurd (decide_eq_true h) hnle
        · exact h
      refine List.pairwise_cons.mpr ⟨?_, ih hys⟩
      intro b hb
      rcases (mem_insertByDate x b ys).mp hb with rfl | hb'
      · exact hyx
      · exact hy b hb'

theorem sortByDate_pairwise (l : List (Date × ℚ)) :
    (sortByDate l).Pairwise (fun a b => dateLe a.1 b.1) := by
  induction l with
  | nil => simp [sortByDate]
  | cons x xs ih => exact pairwise_insertByDate x (sortByDate xs) ih

theorem mem_dedupKeepLast {α : Type} (l : List (Date × α)) (x : Date × α) :
    x ∈ dedupKeepLast l ↔ (l.filter (fun y => y.1 == x.1)).getLast? = some x := by
  induction l with
  | nil => simp [dedupKeepLast]
  | cons a l ih =>
    simp only [dedupKeepLast]
    by_cases hA : l.any (fun y => y.1 == a.1)
    · rw [if_pos hA, ih, List.filter_cons]
      by_cases hax : (a.1 == x.1) = true
      · rw [if_pos hax]
        rw [List.any_eq_true] at hA
        obtain ⟨y, hy, hya⟩ := hA
        have hyx : (y.1 == x.1) = true :=
          beq_iff_eq.mpr ((beq_iff_eq.mp hya).trans (beq_iff_eq.mp hax))
        have hne : l.filter (fun y => y.1 == x.1) ≠ [] := by
          intro h0
          have hmem : y ∈ l.filter (fun y => y.1 == x.1) :=
            List.mem_filter.mpr ⟨hy, hyx⟩
          rw [h0] at hmem
          exact absurd hmem (List.not_mem_nil _)
        obtain ⟨b, l2, hbl⟩ := List.exists_cons_of_ne_nil hne
        rw [hbl, List.getLast?_cons_cons]
      · rw [if_neg hax]
    · rw [if_neg hA]
      by_cases hax : (a.1 == x.1) = true
      · have hfl : l.filter (fun y => y.1 == x.1) = [] := by
          rw [List.filter_eq_nil_iff]
          intro y hy hyx
          apply hA
          rw [List.any_eq_true]
          exact ⟨y, hy,
            beq_iff_eq.mpr ((beq_iff_eq.mp hyx).trans (beq_iff_eq.mp hax).symm)⟩
        rw [List.filter_cons, if_pos hax, hfl]
        constructor
        · intro hx
          rcases List.mem_cons.mp hx with rfl | hx'
          · rfl
          · have hlast := ih.mp hx'
            rw [hfl] at hlast
            exact absurd hlast (by simp)
        · intro he
          rw [show ([a].getLast? = some x) ↔ (some a = some x) from Iff.rfl,
            Option.some.injEq] at he
          rw [he] at *
          exact List.mem_cons_self _ _
      · rw [List.filter_cons, if_neg hax, ← ih]
        constructor
        · intro hx
          rcases List.mem_cons.mp hx with rfl | hx'
          · exact absurd (beq_iff_eq.mpr rfl) (by exact hax)
          · exact hx'
        · intro h
          exact List.mem_cons_of_mem a h

theorem mem_dedupKeepLastPair {α : Type} (l : List (Date × α)) (d : Date) (a : α) :
    (d, a) ∈ dedupKeepLast l ↔
      (l.filter (fun y => y.1 == d)).getLast? = some (d, a) :=
  mem_dedupKeepLast l (d, a)

theorem mem_of_mem_dedupKeepLast {α : Type} (l : List (Date × α)) (x : Date × α)
    (h : x ∈ dedupKeepLast l) : x ∈ l := by
  induction l with
  | nil => simp [dedupKeepLast] at h
  | cons a l ih =>
    simp only [dedupKeepLast] at h
    split at h
    · exact List.mem_cons_of_mem a (ih h)
    · rcases List.mem_cons.mp h with rfl | h'
      · exact List.mem_cons_self _ _
      · exact List.mem_cons_of_mem a (ih h')

theorem nodup_map_fst_dedupKeepLast {α : Type} (l : List (Date × α)) :
    ((dedupKeepLast l).map Prod.fst).Nodup := by
  induction l with
  | nil => simp [dedupKeepLast]
  | cons a l ih =>
    simp only [dedupKeepLast]
    split
    · exact ih
    · rename_i hA
      rw [List.map_cons]
      refine List.nodup_cons.mpr ⟨?_, ih⟩
      intro hmem
      rw [List.mem_map] at hmem
      obtain ⟨y, hy, hfst⟩ := hmem
      apply hA
      rw [List.any_eq_true]
      exact ⟨y, mem_of_mem_dedupKeepLast l y hy, beq_iff_eq.mpr hfst⟩

theorem mem_dropMissing (l : List (Date × Option ℚ)) (d : Date) (v : ℚ) :
    (d, v) ∈ dropMissing l ↔ (d, some v) ∈ l := by
  unfold dropMissing
  rw [List.mem_filterMap]
  constructor
  · rintro ⟨p, hp, he⟩
    obtain ⟨p1, p2⟩ := p
    cases p2 with
    | none => exact absurd he (by simp)
    | some q =>
      have he2 : (p1, q) = (d, v) := Option.some.inj he
      rw [Prod.mk.injEq] at he2
      obtain ⟨h1, h2⟩ := he2
      rw [h1, h2] at hp
      exact hp
  · intro hmem
    exact ⟨(d, some v), hmem, rfl⟩

theorem dropMissing_map_fst_sublist (l : List (Date × Option ℚ)) :
    ((dropMissing l).map Prod.fst).Sublist (l.map Prod.fst) := by
  induction l with
  | nil => simp [dropMissing]
  | cons p ps ih =>
    obtain ⟨p1, p2⟩ := p
    cases p2 with
    | none =>
      simp only [dropMissing, List.filterMap_cons] at *
      exact ih.cons p1
    | some q =>
      simp only [dropMissing, List.filterMap_cons] at *
      exact ih.cons₂ p1

/-- The value the cleaning pipeline keeps for date `d`: take the last raw
entry keyed `d` (duplicates keep the last occurrence) and its numeric
coercion — `none` when there is no such entry or its coercion is missing. -/
def lastCoerced (index : List Date) (vals : List RawVal) (d : Date) : Option ℚ :=
  (((index.zip (vals.map toNumericCoerce)).filter
    (fun y => y.1 == d)).getLast?).bind (fun p => p.2)

theorem getLast?_filter_bind_iff (l : List (Date × Option ℚ)) (d : Date) (v : ℚ) :
    (l.filter (fun y => y.1 == d)).getLast? = some (d, some v) ↔
    ((l.filter (fun y => y.1 == d)).getLast?).bind (fun p => p.2) = some v := by
  constructor
  · intro h
    rw [h]
    rfl
  · intro h
    cases hg : (l.filter (fun y => y.1 == d)).getLast? with
    | none =>
      rw [hg] at h
      exact absurd h (by simp)
    | some p =>
      rw [hg] at h
      obtain ⟨p1, p2⟩ := p
      have hp1 : p1 = d := by
        have hm := List.mem_of_mem_getLast? hg
        exact beq_iff_eq.mp (List.mem_filter.mp hm).2
      have hp2 : p2 = some v := h
      rw [hp1, hp2]

/-- C3: the extractor's cleaning — coerce to numeric treating non-numeric as
missing, drop duplicate dates keeping the last occurrence, drop missing
entries, sort ascending by date. A successful result is date-sorted, has no
duplicate dates, and holds exactly the entries whose date's last raw
occurrence coerces to a number (so of two entries for one date only the
later-occurring value is kept); the run aborts exactly when no date survives
the cleaning. -/
theorem c3_clean_dedup_sort (index : List Date) (vals : List RawVal) :
    (∀ res, clean_close index vals = .ok res →
      res.Pairwise (fun a b => dateLe a.1 b.1) ∧
      (res.map Prod.fst).Nodup ∧
      (∀ d v, ((d, v) ∈ res ↔ lastCoerced index vals d = some v))) ∧
    (clean_close index vals =
        .error "Close price series contains no numeric data." ↔
      ∀ d, lastCoerced index vals d = none) := by
  constructor
  · intro res h
    simp only [clean_close] at h
    split at h
    · exact absurd h (by simp)
    · rw [Except.ok.injEq] at h
      subst h
      refine ⟨sortByDate_pairwise _, ?_, ?_⟩
      · have hperm := (sortByDate_perm
          (dropMissing (dedupKeepLast (index.zip (vals.map toNumericCoerce))))).map
          Prod.fst
        rw [hperm.nodup_iff]
        exact List.Nodup.sublist (dropMissing_map_fst_sublist _)
          (nodup_map_fst_dedupKeepLast _)
      · intro d v
        rw [mem_sortByDate, mem_dropMissing, mem_dedupKeepLastPair,
          getLast?_filter_bind_iff]
        exact Iff.rfl
  · constructor
    · intro herr d
      simp only [clean_close] at herr
      by_cases hemp : (dropMissing (dedupKeepLast
          (index.zip (vals.map toNumericCoerce)))).isEmpty
      · rw [List.isEmpty_iff] at hemp
        cases hlc : lastCoerced index vals d with
        | none => rfl
        | some v =>
          have hmem : (d, v) ∈ dropMissing (dedupKeepLast
              (index.zip (vals.map toNumericCoerce))) := by
            rw [mem_dropMissing, mem_dedupKeepLastPair]
            unfold lastCoerced at hlc
            exact (getLast?_filter_bind_iff _ d v).mpr hlc
          rw [hemp] at hmem
          exact absurd hmem (List.not_mem_nil _)
      · rw [if_neg hemp] at herr
        exact absurd herr (by simp)
    · intro hall
      have hemp : (dropMissing (dedupKeepLast
          (index.zip (vals.map toNumericCoerce)))).isEmpty = true := by
        rw [List.isEmpty_iff]
        by_contra hne
        obtain ⟨x, hx⟩ := List.exists_mem_of_ne_nil _ hne
        obtain ⟨xd, xv⟩ := x
        have h1 := (mem_dropMissing _ xd xv).mp hx
        have h2 := (mem_dedupKeepLastPair _ xd _).mp h1
        have h3 := (getLast?_filter_bind_iff _ xd xv).mp h2
        have h4 := hall xd
        unfold lastCoerced at h4
        rw [h4] at h3
        exact absurd h3 (by simp)
      simp only [clean_close]
      rw [if_pos hemp]

/-- Witness for C3: raw entries [(Jan 1, 5), (Jan 2, "x"), (Jan 1, 7)] clean
to the single entry (Jan 1, 7): the later duplicate wins, the non-numeric
entry is dropped. -/
theorem c3_clean_dedup_sort_witness :
    ((⟨2024, 1, 1⟩, (7 : ℚ)) ∈ [((⟨2024, 1, 1⟩ : Date), (7 : ℚ))]) ↔
      lastCoerced [⟨2024, 1, 1⟩, ⟨2024, 1, 2⟩, ⟨2024, 1, 1⟩]
        [.num 5, .text "x", .num 7] ⟨2024, 1, 1⟩ = some 7 :=
  (((c3_clean_dedup_sort [⟨2024, 1, 1⟩, ⟨2024, 1, 2⟩, ⟨2024, 1, 1⟩]
    [.num 5, .text "x", .num 7]).1 [(⟨2024, 1, 1⟩, 7)] (by rfl)).2.2 ⟨2024, 1, 1⟩ 7)

/-! ### Column resolution (C4) -/

/-- Looking a ticker up among the "Close"-labeled columns is the same as the
direct two-level `(Close, ticker)` lookup. -/
theorem lookup_closeColumns (cols : List ((String × String) × List RawVal))
    (t : String) :
    (closeColumns cols).lookup t = cols.lookup ("Close", t) := by
  induction cols with
  | nil => rfl
  | cons kv rest ih =>
    obtain ⟨⟨f, tk⟩, v⟩ := kv
    cases hf : (f == "Close") with
    | false =>
      have hf2 : (("Close", t) == (f, tk)) = false := by
        have h3 : (("Close" : String) == f) = false := by
          rw [beq_eq_false_iff_ne] at *
          exact fun h => hf h.symm
        show ((("Close" : String) == f) && (t == tk)) = false
        rw [h3, Bool.false_and]
      simp only [closeColumns, List.filterMap_cons]
      rw [if_neg (by rw [hf]; exact Bool.false_ne_true), List.lookup_cons, hf2]
      exact ih
    | true =>
      have hf2 : (("Close", t) == (f, tk)) = (t == tk) := by
        have h3 : (("Close" : String) == f) = true := by
          rw [beq_iff_eq] at *
          exact hf.symm
        show ((("Close" : String) == f) && (t == tk)) = (t == tk)
        rw [h3, Bool.true_and]
      simp only [closeColumns, List.filterMap_cons]
      rw [if_pos hf, List.lookup_cons, List.lookup_cons, hf2]
      cases ht : (t == tk) with
      | true => rfl
      | false => exact ih

/-- C4: resolution of the close column in a two-level (field × ticker) table:
a direct `(Close, ticker)` hit is used first; with no "Close" field at all
the run aborts; a single remaining "Close" column is used even when its name
is not the requested ticker; an exact ticker match among the "Close" columns
is selected; with two or more "Close" columns and no ticker match the run
aborts listing the available columns. -/
theorem c4_close_column_resolution (index : List Date)
    (cols : List ((String × String) × List RawVal)) (ticker : String) :
    (∀ v, cols.lookup ("Close", ticker) = some v →
      select_close (History.multi index cols) ticker = .ok v) ∧
    (closeColumns cols = [] →
      select_close (History.multi index cols) ticker =
        .error "Downloaded data does not include 'Close' prices.") ∧
    (∀ t v, closeColumns cols = [(t, v)] →
      select_close (History.multi index cols) ticker = .ok v) ∧
    (∀ v, (closeColumns cols).lookup ticker = some v →
      select_close (History.multi index cols) ticker = .ok v) ∧
    ((closeColumns cols).lookup ticker = none →
      2 ≤ (closeColumns cols).length →
      select_close (History.multi index cols) ticker =
        .error ("Unable to find close prices for ticker '" ++ ticker ++
          "'. Available columns: " ++
          String.intercalate ", " ((closeColumns cols).map Prod.fst))) := by
  refine ⟨?_, ?_, ?_, ?_, ?_⟩
  · intro v hv
    simp only [select_close]
    rw [hv]
  · intro hcc
    have hl : cols.lookup ("Close", ticker) = none := by
      rw [← lookup_closeColumns, hcc]
      rfl
    simp only [select_close]
    rw [hl, hcc]
    rfl
  · intro t v hcc
    cases hb : (ticker == t) with
    | true =>
      have hv : cols.lookup ("Close", ticker) = some v := by
        rw [← lookup_closeColumns, hcc, List.lookup_cons, hb]
      simp only [select_close]
      rw [hv]
    | false =>
      have hnone : cols.lookup ("Close", ticker) = none := by
        rw [← lookup_closeColumns, hcc, List.lookup_cons, hb]
        rfl
      simp only [select_close]
      rw [hnone, hcc, List.lookup_cons, hb]
      rfl
  · intro v hv
    have hv2 : cols.lookup ("Close", ticker) = some v := by
      rw [← lookup_closeColumns]
      exact hv
    simp only [select_close]
    rw [hv2]
  · intro hnone hlen
    have hl : cols.lookup ("Close", ticker) = none := by
      rw [← lookup_closeColumns]
      exact hnone
    have hne : ¬((closeColumns cols).isEmpty = true) := by
      rw [List.isEmpty_iff]
      intro h0
      rw [h0] at hlen
      simp at hlen
    obtain ⟨c1, cs, hc⟩ : ∃ c1 cs, closeColumns cols = c1 :: cs := by
      cases h0 : closeColumns cols with
      | nil =>
        rw [h0] at hlen
        simp at hlen
      | cons a b => exact ⟨a, b, rfl⟩
    obtain ⟨c2, cs2, hcs⟩ : ∃ c2 cs2, cs = c2 :: cs2 := by
      cases h0 : cs with
      | nil =>
        rw [h0] at hc
        rw [hc] at hlen
        simp at hlen
      | cons a b => exact ⟨a, b, rfl⟩
    simp only [select_close]
    rw [hl, if_neg hne, hnone, hc, hcs]

/-- Witness for C4: a two-level table whose only "Close" column belongs to a
different ticker name is still selected. -/
theorem c4_close_column_resolution_witness :
    select_close
      (History.multi [⟨2024, 1, 2⟩] [(("Close", "AGG"), [RawVal.num 3])])
      "IEF" = .ok [RawVal.num 3] :=
  ((c4_close_column_resolution [⟨2024, 1, 2⟩]
    [(("Close", "AGG"), [RawVal.num 3])] "IEF").2.2.1) "AGG" [RawVal.num 3]
    (by rfl)

/-! ### The exclusive end bound (C5) -/

/-- C5: the fetch requests `[start, end + 1 day)` from the provider — the
frame a successful `download_history` returns is precisely the provider's
response for the exclusive end bound `succDate end` — and therefore, for a
provider that treats its end bound as exclusive over any universe of (valid)
trading dates, the fetched dates are exactly those in the inclusive window
`[start, end]`. -/
theorem c5_end_plus_one_day (p : Provider) (t : String) (s e : Timestamp)
    (univ : List Date)
    (hexcl : ∀ a b : Date, (p t a b).index =
      univ.filter (fun d => decide (dateLe a d) && decide (dateLt d b)))
    (hu : ∀ d ∈ univ, ValidDate d) (he : ValidDate e.date) :
    (∀ h, download_history p t s e = .ok h →
      h = p t s.date (succDate e.date)) ∧
    (∀ h, download_history p t s e = .ok h →
      h.index = univ.filter (fun d => decide (dateLe s.date d) &&
        decide (dateLe d e.date))) := by
  have hok : ∀ h, download_history p t s e = .ok h →
      h = p t s.date (succDate e.date) := by
    intro h hdl
    simp only [download_history] at hdl
    split at hdl
    · exact absurd hdl (by simp)
    · rw [Except.ok.injEq] at hdl
      exact hdl.symm
  refine ⟨hok, fun h hdl => ?_⟩
  rw [hok h hdl, hexcl s.date (succDate e.date)]
  refine List.filter_congr fun d hd => ?_
  rw [decide_eq_decide.mpr (dateLt_succDate_iff d e.date (hu d hd) he)]

/-- Witness for C5: universe {2024-05-15, 2024-05-16}, window ending
2024-05-15 — the fetched index is exactly the inclusive window. -/
theorem c5_end_plus_one_day_witness :
    (History.single
        ([(⟨2024, 5, 15⟩ : Date), ⟨2024, 5, 16⟩].filter (fun d =>
          decide (dateLe (⟨2024, 1, 15⟩ : Date) d) &&
          decide (dateLt d (succDate ⟨2024, 5, 15⟩))))
        [("Close", [RawVal.num 1])]).index =
      [(⟨2024, 5, 15⟩ : Date), ⟨2024, 5, 16⟩].filter (fun d =>
        decide (dateLe (⟨2024, 1, 15⟩ : Date) d) &&
        decide (dateLe d (⟨2024, 5, 15⟩ : Date))) :=
  (c5_end_plus_one_day
    (fun _ a b => History.single
      ([(⟨2024, 5, 15⟩ : Date), ⟨2024, 5, 16⟩].filter (fun d =>
        decide (dateLe a d) && decide (dateLt d b)))
      [("Close", [RawVal.num 1])])
    "IEF" ⟨⟨2024, 1, 15⟩, 0⟩ ⟨⟨2024, 5, 15⟩, 0⟩ [⟨2024, 5, 15⟩, ⟨2024, 5, 16⟩]
    (fun _ _ => rfl) (by decide) (by decide)).2 _ (by rfl)

/-! ### The main pipeline on success (C6, C8, C9) -/

/-- On a successful run, the written file's path is the resolved output path
with the enforced suffix, and its summary value is the mean of the daily
closes. -/
theorem runMain_ok_spec (provider : Provider) (t : String) (D : Date)
    (out : Option (List Char)) (f : WrittenFile)
    (h : runMain provider t D out = .ok f) :
    f.path = withSuffix (resolved_output_path t D out) xlsxChars ∧
    f.summaryValue = mean (f.daily.map Row.close) := by
  simp only [runMain] at h
  split at h
  · exact absurd h (by simp)
  · split at h
    · exact absurd h (by simp)
    · split at h
      · exact absurd h (by simp)
      · rw [Except.ok.injEq] at h
        subst h
        exact ⟨rfl, rfl⟩

/-- C6: the reported four-month average is the unweighted arithmetic mean of
the "Close" values of the final daily rows; for closes [100, 102, 98] the
mean is 100. -/
theorem c6_average_is_mean (provider : Provider) (t : String) (D : Date)
    (out : Option (List Char)) (f : WrittenFile)
    (h : runMain provider t D out = .ok f) :
    f.summaryValue = (f.daily.map Row.close).sum / ((f.daily.length : ℚ)) ∧
    mean [100, 102, 98] = 100 := by
  constructor
  · rw [(runMain_ok_spec provider t D out f h).2]
    unfold mean
    rw [List.length_map]
  · norm_num [mean, List.sum_cons, List.sum_nil]

/-- Witness for C6: a full pipeline run over closes [100, 102, 98]. -/
theorem c6_average_is_mean_witness : mean [100, 102, 98] = 100 :=
  (c6_average_is_mean
    (fun _ _ _ => History.single [⟨2024, 3, 14⟩, ⟨2024, 3, 15⟩, ⟨2024, 3, 16⟩]
      [("Close", [.num 100, .num 102, .num 98])])
    "IEF" ⟨2024, 3, 15⟩ none
    { path := ("IEF_2024-03-15_daily_closes.xlsx").data
      daily := [{ date := ⟨2024, 3, 14⟩, close := 100,
                  segment := "Before 2024-03-15" },
                { date := ⟨2024, 3, 15⟩, close := 102,
                  segment := "On/After 2024-03-15" },
                { date := ⟨2024, 3, 16⟩, close := 98,
                  segment := "On/After 2024-03-15" }]
      summaryMetric := "Four-month average close"
      summaryValue := mean [100, 102, 98] }
    (by rfl)).2

/-- C8: when the provider returns an empty frame, the run aborts with the
message naming the ticker and the requested inclusive date range, and no
output file is produced. -/
theorem c8_empty_provider_aborts (provider : Provider) (t : String) (D : Date)
    (out : Option (List Char))
    (hempty : (provider t (compute_window_bounds D).1.date
      (succDate (compute_window_bounds D).2.date)).isEmpty = true) :
    runMain provider t D out =
      .error ("No price data was returned for ticker '" ++ t ++ "' between " ++
        isoDate (compute_window_bounds D).1.date ++ " and " ++
        isoDate (compute_window_bounds D).2.date ++ ".") ∧
    writtenFile (runMain provider t D out) = none := by
  have hdl : download_history provider t (compute_window_bounds D).1
      (compute_window_bounds D).2 =
      .error ("No price data was returned for ticker '" ++ t ++ "' between " ++
        isoDate (compute_window_bounds D).1.date ++ " and " ++
        isoDate (compute_window_bounds D).2.date ++ ".") := by
    simp only [download_history]
    rw [if_pos hempty]
  have hrm : runMain provider t D out =
      .error ("No price data was returned for ticker '" ++ t ++ "' between " ++
        isoDate (compute_window_bounds D).1.date ++ " and " ++
        isoDate (compute_window_bounds D).2.date ++ ".") := by
    simp only [runMain]
    rw [hdl]
  exact ⟨hrm, by rw [hrm]; rfl⟩

/-- Witness for C8 with a provider that always returns an empty frame. -/
theorem c8_empty_provider_aborts_witness :
    runMain (fun _ _ _ => History.single [] []) "ZZZZ" ⟨2024, 3, 15⟩ none =
      .error ("No price data was returned for ticker '" ++ "ZZZZ" ++
        "' between " ++
        isoDate (compute_window_bounds ⟨2024, 3, 15⟩).1.date ++ " and " ++
        isoDate (compute_window_bounds ⟨2024, 3, 15⟩).2.date ++ ".") ∧
    writtenFile (runMain (fun _ _ _ => History.single [] []) "ZZZZ"
      ⟨2024, 3, 15⟩ none) = none :=
  c8_empty_provider_aborts (fun _ _ _ => History.single [] []) "ZZZZ"
    ⟨2024, 3, 15⟩ none (by rfl)

/-! ### Output path suffix handling (C9) -/

theorem lastDotSplit_append (l₁ l₂ p q : List Char)
    (h : lastDotSplit l₂ = some (p, q)) :
    lastDotSplit (l₁ ++ l₂) = some (l₁ ++ p, q) := by
  induction l₁ with
  | nil => simpa using h
  | cons c cs ih =>
    rw [List.cons_append]
    simp only [lastDotSplit]
    rw [ih]
    rfl

theorem sfx_stem_append_xlsx (stem : List Char) (h : stem ≠ []) :
    sfx (stem ++ xlsxChars) = xlsxChars := by
  have h2 := lastDotSplit_append stem xlsxChars []
    ['x', 'l', 's', 'x'] rfl
  rw [List.append_nil] at h2
  have hcond : ¬((stem.isEmpty ||
      (['x', 'l', 's', 'x'] : List Char).isEmpty) = true) := by
    simp only [Bool.or_eq_true, List.isEmpty_iff]
    rintro (h0 | h0)
    · exact h h0
    · simp at h0
  unfold sfx
  rw [h2]
  show (if (stem.isEmpty ||
      (['x', 'l', 's', 'x'] : List Char).isEmpty) = true then []
    else '.' :: ['x', 'l', 's', 'x']) = xlsxChars
  rw [if_neg hcond]
  rfl

theorem withSuffix_eq_stem_append (name : List Char) (hne : name ≠ []) :
    ∃ stem, stem ≠ [] ∧ withSuffix name xlsxChars = stem ++ xlsxChars := by
  unfold withSuffix
  cases hls : lastDotSplit name with
  | none => exact ⟨name, hne, rfl⟩
  | some pq =>
    obtain ⟨pre, post⟩ := pq
    by_cases hc : (pre.isEmpty || post.isEmpty) = true
    · refine ⟨name, hne, ?_⟩
      show (if (pre.isEmpty || post.isEmpty) = true then name ++ xlsxChars
        else pre ++ xlsxChars) = name ++ xlsxChars
      rw [if_pos hc]
    · have hpre : pre ≠ [] := by
        intro h0
        apply hc
        rw [h0]
        rfl
      refine ⟨pre, hpre, ?_⟩
      show (if (pre.isEmpty || post.isEmpty) = true then name ++ xlsxChars
        else pre ++ xlsxChars) = pre ++ xlsxChars
      rw [if_neg hc]

theorem sfx_withSuffix_xlsx (name : List Char) (hne : name ≠ []) :
    sfx (withSuffix name xlsxChars) = xlsxChars := by
  obtain ⟨stem, hs, he⟩ := withSuffix_eq_stem_append name hne
  rw [he]
  exact sfx_stem_append_xlsx stem hs

theorem withSuffix_default_name (t : String) (D : Date) :
    withSuffix ((t ++ "_" ++ isoDate D ++ "_daily_closes.xlsx").data) xlsxChars =
      (t ++ "_" ++ isoDate D ++ "_daily_closes.xlsx").data := by
  have hsplitlit : ("_daily_closes.xlsx" : String) = "_daily_closes" ++ ".xlsx" :=
    rfl
  have hdata : (t ++ "_" ++ isoDate D ++ "_daily_closes.xlsx").data =
      ((t ++ "_" ++ isoDate D ++ "_daily_closes").data) ++ xlsxChars := by
    rw [hsplitlit, ← String.append_assoc, String.data_append]
    rfl
  have hstem : ((t ++ "_" ++ isoDate D ++ "_daily_closes").data) ≠ [] := by
    rw [String.data_append]
    intro h0
    exact absurd (List.append_eq_nil.mp h0).2 (by decide)
  rw [hdata]
  have h2 := lastDotSplit_append
    ((t ++ "_" ++ isoDate D ++ "_daily_closes").data) xlsxChars []
    ['x', 'l', 's', 'x'] rfl
  rw [List.append_nil] at h2
  have hcond : ¬((((t ++ "_" ++ isoDate D ++ "_daily_closes").data).isEmpty ||
      (['x', 'l', 's', 'x'] : List Char).isEmpty) = true) := by
    simp only [Bool.or_eq_true, List.isEmpty_iff]
    rintro (h0 | h0)
    · exact hstem h0
    · simp at h0
  unfold withSuffix
  rw [h2]
  show (if (((t ++ "_" ++ isoDate D ++ "_daily_closes").data).isEmpty ||
      (['x', 'l', 's', 'x'] : List Char).isEmpty) = true then
    (t ++ "_" ++ isoDate D ++ "_daily_closes").data ++ xlsxChars ++ xlsxChars
    else (t ++ "_" ++ isoDate D ++ "_daily_closes").data ++ xlsxChars) =
    (t ++ "_" ++ isoDate D ++ "_daily_closes").data ++ xlsxChars
  rw [if_neg hcond]

/-- C9: with no `--output` the written file's path is
`{ticker}_{reference}_daily_closes.xlsx`; with any (nonempty) `--output`
path, the written file's path is that path with its extension replaced, so
the written extension is always `.xlsx`. -/
theorem c9_output_path_extension (ticker : String) (D : Date)
    (provider : Provider) :
    (∀ f, runMain provider ticker D none = .ok f →
      f.path = (ticker ++ "_" ++ isoDate D ++ "_daily_closes.xlsx").data) ∧
    (∀ (name : List Char) g, name ≠ [] →
      runMain provider ticker D (some name) = .ok g →
      g.path = withSuffix name xlsxChars ∧ sfx g.path = xlsxChars) := by
  constructor
  · intro f h
    rw [(runMain_ok_spec provider ticker D none f h).1]
    exact withSuffix_default_name ticker D
  · intro name g hne h
    have h1 := (runMain_ok_spec provider ticker D (some name) g h).1
    refine ⟨h1, ?_⟩
    rw [h1]
    exact sfx_withSuffix_xlsx name hne

/-- Witness for C9 on a concrete successful run with the default output
path. -/
theorem c9_output_path_extension_witness :
    ({ path := ("IEF_2024-03-15_daily_closes.xlsx").data
       daily := [{ date := ⟨2024, 3, 14⟩, close := 100,
                   segment := "Before 2024-03-15" },
                 { date := ⟨2024, 3, 15⟩, close := 102,
                   segment := "On/After 2024-03-15" },
                 { date := ⟨2024, 3, 16⟩, close := 98,
                   segment := "On/After 2024-03-15" }]
       summaryMetric := "Four-month average close"
       summaryValue := mean [100, 102, 98] } : WrittenFile).path =
      ("IEF" ++ "_" ++ isoDate ⟨2024, 3, 15⟩ ++ "_daily_closes.xlsx").data :=
  (c9_output_path_extension "IEF" ⟨2024, 3, 15⟩
    (fun _ _ _ => History.single [⟨2024, 3, 14⟩, ⟨2024, 3, 15⟩, ⟨2024, 3, 16⟩]
      [("Close", [.num 100, .num 102, .num 98])])).1
    { path := ("IEF_2024-03-15_daily_closes.xlsx").data
      daily := [{ date := ⟨2024, 3, 14⟩, close := 100,
                  segment := "Before 2024-03-15" },
                { date := ⟨2024, 3, 15⟩, close := 102,
                  segment := "On/After 2024-03-15" },
                { date := ⟨2024, 3, 16⟩, close := 98,
                  segment := "On/After 2024-03-15" }]
      summaryMetric := "Four-month average close"
      summaryValue := mean [100, 102, 98] }
    (by rfl)

end BondEndPrices
